import Mathlib

/-!
Verification of the amount-extraction pipeline and ledger store of pp.py.

Text is embedded as a list of characters.  The calls
re.findall / re.search with the pattern  \d+\.\d{2}|\d+  are embedded by an
explicit left-to-right scan: at a digit, the first alternative is tried
(the greedy digit run can only place the literal dot directly after the
maximal run, then exactly two digits must follow), otherwise the bare
maximal digit run matches; at a non-digit the scan advances one character.
Python floats on the matched tokens are embedded as exact rationals
(every matched token has at most two fractional digits).  Fallible calls
(the OCR engine, the remote assistant) are embedded as Except-valued
inputs.
-/

namespace Expense

/-- Numeric value of one ASCII digit character. -/
def digitVal (c : Char) : Nat := c.toNat - 48

/-- Base-10 value of a digit list, as Python float/int parsing reads the
matched pieces. -/
def natOfDigits (l : List Char) : Nat :=
  l.foldl (fun a c => a * 10 + digitVal c) 0

/-- The tail step of one match of the pattern: `ds` is the maximal digit
run at the match position, `r` the rest of the text.  The first
alternative extends the run by a dot and exactly two digits when they
follow; otherwise the bare run matches. -/
def matchTail (ds r : List Char) : List Char × List Char :=
  match r with
  | '.' :: d1 :: d2 :: _ =>
      if d1.isDigit && d2.isDigit then (ds ++ ['.', d1, d2], r.drop 3)
      else (ds, r)
  | _ => (ds, r)

/-- One match of the pattern at a position whose head is a digit. -/
def matchTok (l : List Char) : List Char × List Char :=
  matchTail (l.takeWhile (fun c => c.isDigit)) (l.dropWhile (fun c => c.isDigit))

/-- Fuelled scan over the text; every step consumes at least one
character, so length-many units of fuel always finish the text. -/
def scanF : Nat → List Char → List (List Char)
  | 0, _ => []
  | _ + 1, [] => []
  | f + 1, c :: cs =>
      if c.isDigit then (matchTok (c :: cs)).1 :: scanF f (matchTok (c :: cs)).2
      else scanF f cs

/-- All matches of re.findall over the text, in scan order. -/
def scanTokens (l : List Char) : List (List Char) := scanF l.length l

/-- Python float() on a matched token (digits, or digits dot two digits),
as an exact rational. -/
def parseTok (t : List Char) : ℚ :=
  match t.dropWhile (fun c => c.isDigit) with
  | '.' :: fs => (natOfDigits (t.takeWhile (fun c => c.isDigit)) : ℚ) +
      (natOfDigits fs : ℚ) / 100
  | _ => (natOfDigits (t.takeWhile (fun c => c.isDigit)) : ℚ)

/-- pp.py parse_amount_with_regex: all matches of the pattern, return the
last one parsed, else None. -/
def parse_amount_with_regex (text : List Char) : Option ℚ :=
  match (scanTokens text).getLast? with
  | some t => some (parseTok t)
  | none => none

/-- Python str.strip() applied to the assistant response. -/
def pyStrip (s : List Char) : List Char :=
  ((s.dropWhile Char.isWhitespace).reverse.dropWhile Char.isWhitespace).reverse

/-- pp.py parse_amount_with_gemini.  The remote call is an opaque
capability, so its outcome is an input: either an exception or a response
text.  The except-block catches every exception and yields None; on a
response, re.search takes the first match of the same pattern in the
stripped response and parses it, else None. -/
def parse_amount_with_gemini (resp : Except Unit (List Char)) : Option ℚ :=
  match resp with
  | .error _ => none
  | .ok raw =>
      match (scanTokens (pyStrip raw)).head? with
      | some t => some (parseTok t)
      | none => none

/-- Python truthiness of the optional float amount: None and 0.0 are
falsy, any other float is truthy. -/
def truthy : Option ℚ → Bool
  | none => false
  | some q => decide (q ≠ 0)

/-- Lines 62-68 of pp.py extract_amount_from_image, after the OCR call:
the gemini amount when use_gemini is set, and whenever that amount is not
truthy (`if not amount:`) the regex fallback on the raw text. -/
def extract_amount_core (use_gemini : Bool) (resp : Except Unit (List Char))
    (text : List Char) : Option ℚ :=
  let a := if use_gemini then parse_amount_with_gemini resp else none
  if truthy a then a else parse_amount_with_regex text

/-- pp.py extract_amount_from_image.  extract_text_from_image is a bare
pytesseract call with no handler anywhere on the path, so an OCR failure
propagates to the caller; on success the recognized text goes through the
gemini/regex chain, which is total. -/
def extract_amount_from_image (ocr : Except Unit (List Char)) (use_gemini : Bool)
    (resp : Except Unit (List Char)) : Except Unit (Option ℚ) :=
  match ocr with
  | .error e => .error e
  | .ok text => .ok (extract_amount_core use_gemini resp text)

example : scanTokens (("Subtotal 10.00 Tax 1.50 Total 11.50").toList) =
    [("10.00").toList, ("1.50").toList, ("11.50").toList] := by decide

example : scanTokens (("Total 12.345").toList) = [("12.34").toList, ("5").toList] := by
  decide

example : scanTokens (("1,234.56").toList) = [("1").toList, ("234.56").toList] := by
  decide

example : parse_amount_with_regex (("thank you for shopping").toList) = none := by decide

example : scanTokens (("12.3a 7").toList) = [("12").toList, ("3").toList, ("7").toList] := by
  decide

/-! Evaluation helpers: token values are rationals, whose arithmetic the
kernel does not reduce, so concrete values are computed through these
lemmas plus norm_num. -/

theorem parse_regex_eq (text tok : List Char)
    (h : (scanTokens text).getLast? = some tok) :
    parse_amount_with_regex text = some (parseTok tok) := by
  unfold parse_amount_with_regex
  rw [h]

theorem parse_regex_none (text : List Char) (h : scanTokens text = []) :
    parse_amount_with_regex text = none := by
  unfold parse_amount_with_regex
  rw [h]
  rfl

theorem parseTok_dec_eval (t ds fs : List Char) (i f : Nat)
    (h1 : t.dropWhile (fun c => c.isDigit) = '.' :: fs)
    (h2 : t.takeWhile (fun c => c.isDigit) = ds)
    (h3 : natOfDigits ds = i) (h4 : natOfDigits fs = f) :
    parseTok t = (i : ℚ) + (f : ℚ) / 100 := by
  simp [parseTok, h1, h2, h3, h4]

theorem gemini_eq (raw t : List Char) (h : scanTokens (pyStrip raw) = [t]) :
    parse_amount_with_gemini (Except.ok raw) = some (parseTok t) := by
  show (match (scanTokens (pyStrip raw)).head? with
    | some u => some (parseTok u)
    | none => none) = some (parseTok t)
  rw [h]
  rfl

theorem core_if (resp : Except Unit (List Char)) (text : List Char) :
    extract_amount_core true resp text =
      if truthy (parse_amount_with_gemini resp) = true then parse_amount_with_gemini resp
      else parse_amount_with_regex text := rfl

theorem core_nog (resp : Except Unit (List Char)) (text : List Char) :
    extract_amount_core false resp text = parse_amount_with_regex text := rfl

theorem core_false (resp : Except Unit (List Char)) (text : List Char)
    (h : truthy (parse_amount_with_gemini resp) = false) :
    extract_amount_core true resp text = parse_amount_with_regex text := by
  rw [core_if, h]
  simp

example : parseTok (("11.50").toList) = 23 / 2 := by
  rw [parseTok_dec_eval (("11.50").toList) (("11").toList) (("50").toList) 11 50
    (by decide) (by decide) (by decide) (by decide)]
  norm_num

example : parse_amount_with_regex (("Subtotal 10.00 Tax 1.50 Total 11.50").toList) =
    some (23 / 2) := by
  rw [parse_regex_eq _ (("11.50").toList) (by decide),
    parseTok_dec_eval (("11.50").toList) (("11").toList) (("50").toList) 11 50
      (by decide) (by decide) (by decide) (by decide)]
  norm_num

/-! Structural lemmas about the scan. -/

theorem span_append (p : Char → Bool) (t : List Char)
    (ht : ∀ c, t.head? = some c → p c = false) (l : List Char) :
    ((l ++ t).takeWhile p = l.takeWhile p) ∧
      ((l ++ t).dropWhile p = l.dropWhile p ++ t) := by
  induction l with
  | nil =>
      cases t with
      | nil => exact ⟨rfl, rfl⟩
      | cons c cs =>
          have hc := ht c rfl
          simp [List.takeWhile_cons, List.dropWhile_cons, hc]
  | cons x l ih =>
      by_cases hx : p x = true
      · simp [List.takeWhile_cons, List.dropWhile_cons, hx, ih.1, ih.2]
      · simp [List.takeWhile_cons, List.dropWhile_cons, hx]

theorem takeWhile_app (p : Char → Bool) (a t : List Char)
    (ha : ∀ c ∈ a, p c = true) (ht : ∀ c, t.head? = some c → p c = false) :
    ((a ++ t).takeWhile p = a) ∧ ((a ++ t).dropWhile p = t) := by
  induction a with
  | nil =>
      cases t with
      | nil => exact ⟨rfl, rfl⟩
      | cons c cs =>
          have hc := ht c rfl
          simp [List.takeWhile_cons, List.dropWhile_cons, hc]
  | cons x a ih =>
      have hx := ha x (by simp)
      have ih' := ih (fun c hc => ha c (by simp [hc]))
      simp [List.takeWhile_cons, List.dropWhile_cons, hx, ih'.1, ih'.2]

/-- A separator position: the next character, when there is one, is
neither a digit nor a dot, so no match can start across it. -/
def okSep : List Char → Bool
  | [] => true
  | c :: _ => !c.isDigit && c != '.'

theorem okSep_head {c : Char} {cs : List Char} (h : okSep (c :: cs) = true) :
    c.isDigit = false ∧ c ≠ '.' := by
  simp only [okSep, Bool.and_eq_true, Bool.not_eq_true', bne_iff_ne] at h
  exact h

theorem matchTail_nondot (ds : List Char) (x : Char) (l : List Char) (hx : x ≠ '.') :
    matchTail ds (x :: l) = (ds, x :: l) := by
  unfold matchTail
  split
  · next d1 d2 rest heq =>
      exact absurd (List.cons.injEq .. ▸ heq).1 hx
  · rfl

theorem matchTail_append (ds r t : List Char) (ht : okSep t = true) :
    matchTail ds (r ++ t) = ((matchTail ds r).1, (matchTail ds r).2 ++ t) := by
  cases t with
  | nil => simp
  | cons c cs =>
    obtain ⟨hcd, hcp⟩ := okSep_head ht
    rcases r with _ | ⟨x, rr⟩
    · rw [List.nil_append, matchTail_nondot _ _ _ hcp]
      rfl
    · by_cases hx : x = '.'
      · subst hx
        rcases rr with _ | ⟨y, _ | ⟨z, rr2⟩⟩
        · -- r = ['.']
          cases cs with
          | nil => rfl
          | cons c2 cs2 => simp [matchTail, hcd]
        · -- r = ['.', y]
          simp [matchTail, hcd]
        · -- r = '.' :: y :: z :: rr2
          by_cases hyz : (y.isDigit && z.isDigit) = true
          · simp [matchTail, hyz, List.cons_append]
          · simp [matchTail, hyz, List.cons_append]
      · rw [List.cons_append, matchTail_nondot _ _ _ hx, matchTail_nondot _ _ _ hx]
        rfl

theorem matchTok_append (l t : List Char) (ht : okSep t = true) :
    matchTok (l ++ t) = ((matchTok l).1, (matchTok l).2 ++ t) := by
  have hhead : ∀ c, t.head? = some c → c.isDigit = false := by
    intro c hc
    cases t with
    | nil => cases hc
    | cons d ds =>
        obtain ⟨h1, _⟩ := okSep_head ht
        cases hc
        exact h1
  have hspan := span_append (fun c => c.isDigit) t hhead l
  unfold matchTok
  rw [hspan.1, hspan.2]
  exact matchTail_append _ _ _ ht

theorem matchTail_snd_le (ds r : List Char) : ((matchTail ds r).2).length ≤ r.length := by
  rcases r with _ | ⟨x, rr⟩
  · simp [matchTail]
  · by_cases hx : x = '.'
    · subst hx
      rcases rr with _ | ⟨y, _ | ⟨z, rr2⟩⟩
      · simp [matchTail]
      · simp [matchTail]
      · by_cases hyz : (y.isDigit && z.isDigit) = true
        · simp only [matchTail, hyz, if_true]
          simp only [List.drop, List.length_cons]
          omega
        · simp [matchTail, hyz]
    · rw [matchTail_nondot _ _ _ hx]

theorem length_dropWhile_le (p : Char → Bool) (l : List Char) :
    (l.dropWhile p).length ≤ l.length := by
  induction l with
  | nil => simp
  | cons x xs ih =>
      rw [List.dropWhile_cons]
      by_cases hx : p x = true
      · simp only [hx, if_true]
        exact le_trans ih (by simp)
      · simp [hx]

theorem matchTok_snd_le (c : Char) (cs : List Char) (hc : c.isDigit = true) :
    ((matchTok (c :: cs)).2).length ≤ cs.length := by
  unfold matchTok
  have h2 : (c :: cs).dropWhile (fun c => c.isDigit) = cs.dropWhile (fun c => c.isDigit) := by
    rw [List.dropWhile_cons]
    simp [hc]
  rw [h2]
  exact le_trans (matchTail_snd_le _ _) (length_dropWhile_le _ cs)

theorem scanF_congr : ∀ (f g : Nat) (l : List Char),
    l.length ≤ f → l.length ≤ g → scanF f l = scanF g l := by
  intro f
  induction f with
  | zero =>
      intro g l hf _
      have : l = [] := List.length_eq_zero.mp (Nat.le_zero.mp hf)
      subst this
      cases g <;> rfl
  | succ f ih =>
      intro g l hf hg
      cases l with
      | nil => cases g <;> rfl
      | cons c cs =>
          cases g with
          | zero => simp at hg
          | succ g =>
              simp only [scanF]
              by_cases hc : c.isDigit = true
              · simp only [hc, if_true]
                have hle := matchTok_snd_le c cs hc
                have h1 : ((matchTok (c :: cs)).2).length ≤ f :=
                  le_trans hle (Nat.le_of_succ_le_succ (by simpa using hf))
                have h2 : ((matchTok (c :: cs)).2).length ≤ g :=
                  le_trans hle (Nat.le_of_succ_le_succ (by simpa using hg))
                rw [ih g _ h1 h2]
              · have hc' : c.isDigit = false := by
                  cases h : c.isDigit
                  · rfl
                  · exact absurd h hc
                simp only [hc', if_false]
                exact ih g cs (Nat.le_of_succ_le_succ (by simpa using hf))
                  (Nat.le_of_succ_le_succ (by simpa using hg))

theorem scanTokens_cons (c : Char) (cs : List Char) :
    scanTokens (c :: cs) = if c.isDigit then
      (matchTok (c :: cs)).1 :: scanTokens ((matchTok (c :: cs)).2)
    else scanTokens cs := by
  unfold scanTokens
  simp only [List.length_cons, scanF]
  by_cases hc : c.isDigit = true
  · simp only [hc, if_true]
    rw [scanF_congr cs.length ((matchTok (c :: cs)).2).length _
      (matchTok_snd_le c cs hc) le_rfl]
  · have hc' : c.isDigit = false := by
      cases h : c.isDigit
      · rfl
      · exact absurd h hc
    simp [hc']

theorem scan_nodigit_append (s r : List Char) (hs : ∀ c ∈ s, c.isDigit = false) :
    scanTokens (s ++ r) = scanTokens r := by
  induction s with
  | nil => rfl
  | cons x s ih =>
      have hx := hs x (by simp)
      rw [List.cons_append, scanTokens_cons]
      simp only [hx, if_false]
      exact ih (fun c hc => hs c (by simp [hc]))

theorem scan_nodigit (s : List Char) (hs : ∀ c ∈ s, c.isDigit = false) :
    scanTokens s = [] := by
  have := scan_nodigit_append s [] hs
  simpa using this

theorem scan_dec_append (ds : List Char) (d1 d2 : Char) (r : List Char)
    (hne : ds ≠ []) (hds : ∀ c ∈ ds, c.isDigit = true)
    (h1 : d1.isDigit = true) (h2 : d2.isDigit = true) :
    scanTokens (ds ++ '.' :: d1 :: d2 :: r) = (ds ++ ['.', d1, d2]) :: scanTokens r := by
  obtain ⟨x, ds', rfl⟩ := List.exists_cons_of_ne_nil hne
  have hx := hds x (by simp)
  have hspan := takeWhile_app (fun c => c.isDigit) (x :: ds') ('.' :: d1 :: d2 :: r) hds
    (by intro c hc; cases hc; decide)
  rw [List.cons_append, scanTokens_cons]
  simp only [hx, if_true]
  rw [← List.cons_append]
  unfold matchTok
  rw [hspan.1, hspan.2]
  simp [matchTail, h1, h2]

theorem scan_bare_append (ds r : List Char)
    (hne : ds ≠ []) (hds : ∀ c ∈ ds, c.isDigit = true) (hr : okSep r = true) :
    scanTokens (ds ++ r) = ds :: scanTokens r := by
  obtain ⟨x, ds', rfl⟩ := List.exists_cons_of_ne_nil hne
  have hx := hds x (by simp)
  have hhead : ∀ c, r.head? = some c → c.isDigit = false := by
    intro c hc
    cases r with
    | nil => cases hc
    | cons d ds2 =>
        cases hc
        exact (okSep_head hr).1
  have hspan := takeWhile_app (fun c => c.isDigit) (x :: ds') r hds hhead
  rw [List.cons_append, scanTokens_cons]
  simp only [hx, if_true]
  rw [← List.cons_append]
  unfold matchTok
  rw [hspan.1, hspan.2]
  cases r with
  | nil => rfl
  | cons y rr =>
      rw [matchTail_nondot _ _ _ (okSep_head hr).2]

theorem scan_split_aux : ∀ (n : Nat) (a : List Char), a.length ≤ n →
    ∀ (c : Char) (b : List Char), c.isDigit = false → c ≠ '.' →
    scanTokens (a ++ c :: b) = scanTokens (a ++ [c]) ++ scanTokens b := by
  intro n
  induction n with
  | zero =>
      intro a ha c b hc hcp
      have : a = [] := List.length_eq_zero.mp (Nat.le_zero.mp ha)
      subst this
      simp only [List.nil_append, scanTokens_cons, hc, if_false]
      rfl
  | succ n ih =>
      intro a ha c b hc hcp
      cases a with
      | nil =>
          simp only [List.nil_append, scanTokens_cons, hc, if_false]
          rfl
      | cons x a' =>
          by_cases hx : x.isDigit = true
          · have hsep1 : okSep (c :: b) = true := by simp [okSep, hc, hcp]
            have hsep2 : okSep [c] = true := by simp [okSep, hc, hcp]
            rw [List.cons_append, scanTokens_cons]
            simp only [hx, if_true]
            rw [← List.cons_append, matchTok_append _ _ hsep1]
            rw [List.cons_append, scanTokens_cons]
            simp only [hx, if_true]
            rw [← List.cons_append, matchTok_append _ _ hsep2]
            simp only [List.cons_append]
            have hrec := ih ((matchTok (x :: a')).2)
              (le_trans (matchTok_snd_le x a' hx) (Nat.le_of_succ_le_succ (by simpa using ha)))
              c b hc hcp
            rw [hrec]
          · rw [List.cons_append, scanTokens_cons]
            simp only [hx, if_false]
            rw [List.cons_append, scanTokens_cons]
            simp only [hx, if_false]
            exact ih a' (Nat.le_of_succ_le_succ (by simpa using ha)) c b hc hcp

theorem scan_split (a : List Char) (c : Char) (b : List Char)
    (hc : c.isDigit = false) (hcp : c ≠ '.') :
    scanTokens (a ++ c :: b) = scanTokens (a ++ [c]) ++ scanTokens b :=
  scan_split_aux a.length a le_rfl c b hc hcp

/-- Evaluation of a decimal token: integer digits, a dot, fraction digits. -/
theorem parseTok_bare_eval (t ds : List Char) (i : Nat)
    (h1 : t.dropWhile (fun c => c.isDigit) = [])
    (h2 : t.takeWhile (fun c => c.isDigit) = ds)
    (h3 : natOfDigits ds = i) :
    parseTok t = (i : ℚ) := by
  simp [parseTok, h1, h2, h3]

/-! A decomposition of a text into well-formed numeric tokens and
separator stretches that contain no digit and no dot.  This is the
formal reading of a text whose numeric tokens are all well-formed. -/

/-- A well-formed numeric token: bare digits, or digits dot two digits. -/
def isTok (t : List Char) : Bool :=
  match t.dropWhile (fun c => c.isDigit) with
  | [] => !t.isEmpty
  | '.' :: d1 :: d2 :: rest =>
      !(t.takeWhile (fun c => c.isDigit)).isEmpty && d1.isDigit && d2.isDigit &&
        rest.isEmpty
  | _ => false

/-- A separator stretch: no digit, no dot. -/
def sepOk (s : List Char) : Bool := s.all (fun c => !c.isDigit && c != '.')

/-- The text assembled from a leading separator and token/separator pairs. -/
def build : List Char → List (List Char × List Char) → List Char
  | s, [] => s
  | s, (t, s2) :: ps => s ++ (t ++ build s2 ps)

/-- Between two consecutive tokens the separator is nonempty (otherwise
the tokens would merge into a different token). -/
def innerOk : List (List Char × List Char) → Bool
  | (_, s2) :: p :: ps => !s2.isEmpty && innerOk (p :: ps)
  | _ => true

theorem sepOk_chars {s : List Char} (h : sepOk s = true) :
    ∀ c ∈ s, c.isDigit = false ∧ c ≠ '.' := by
  intro c hc
  simp only [sepOk, List.all_eq_true] at h
  have := h c hc
  simp only [Bool.and_eq_true, Bool.not_eq_true', bne_iff_ne] at this
  exact this

theorem okSep_of_sepOk {s : List Char} (h : sepOk s = true) : okSep s = true := by
  cases s with
  | nil => rfl
  | cons c cs =>
      have := sepOk_chars h c (by simp)
      simp [okSep, this.1, this.2]

theorem build_okSep (s2 : List Char) (ps : List (List Char × List Char))
    (hs2 : sepOk s2 = true) (hif : ps = [] ∨ s2 ≠ []) :
    okSep (build s2 ps) = true := by
  cases ps with
  | nil => exact okSep_of_sepOk hs2
  | cons p ps =>
      have hne : s2 ≠ [] := by
        rcases hif with h | h
        · simp at h
        · exact h
      obtain ⟨c, s2', rfl⟩ := List.exists_cons_of_ne_nil hne
      have hc := sepOk_chars hs2 c (by simp)
      rcases p with ⟨t, s3⟩
      simp only [build, List.cons_append]
      simp [okSep, hc.1, hc.2]

theorem isTok_cases {t : List Char} (h : isTok t = true) :
    (t ≠ [] ∧ ∀ c ∈ t, c.isDigit = true) ∨
      (∃ ds d1 d2, t = ds ++ ['.', d1, d2] ∧ ds ≠ [] ∧
        (∀ c ∈ ds, c.isDigit = true) ∧ d1.isDigit = true ∧ d2.isDigit = true) := by
  have hsplit : t.takeWhile (fun c => c.isDigit) ++ t.dropWhile (fun c => c.isDigit) = t :=
    List.takeWhile_append_dropWhile (fun c => c.isDigit) t
  unfold isTok at h
  split at h
  · next heq =>
      left
      constructor
      · intro hnil
        subst hnil
        simp at h
      · exact fun c hc => List.dropWhile_eq_nil_iff.mp heq c hc
  · next d1 d2 rest heq =>
      simp only [Bool.and_eq_true] at h
      obtain ⟨⟨⟨hne, h1⟩, h2⟩, hrest⟩ := h
      have hrest' : rest = [] := by
        cases rest with
        | nil => rfl
        | cons a b => simp at hrest
      subst hrest'
      right
      refine ⟨t.takeWhile (fun c => c.isDigit), d1, d2, ?_, ?_, ?_, h1, h2⟩
      · rw [← heq]
        exact hsplit.symm
      · intro hnil
        rw [hnil] at hne
        simp at hne
      · exact fun c hc => List.mem_takeWhile_imp hc
  · simp at h

theorem scan_build : ∀ (ps : List (List Char × List Char)) (s : List Char),
    sepOk s = true → (∀ p ∈ ps, isTok p.1 = true ∧ sepOk p.2 = true) →
    innerOk ps = true → scanTokens (build s ps) = ps.map Prod.fst := by
  intro ps
  induction ps with
  | nil =>
      intro s hs _ _
      simp only [build, List.map_nil]
      exact scan_nodigit s (fun c hc => (sepOk_chars hs c hc).1)
  | cons p ps ih =>
      intro s hs hps hin
      rcases p with ⟨t, s2⟩
      have hp := hps (t, s2) (by simp)
      have hs2 : sepOk s2 = true := hp.2
      have hts : isTok t = true := hp.1
      have hdisj : ps = [] ∨ s2 ≠ [] := by
        cases ps with
        | nil => exact Or.inl rfl
        | cons q qs =>
            right
            simp only [innerOk, Bool.and_eq_true] at hin
            intro hnil
            subst hnil
            simp at hin
      have hrest : okSep (build s2 ps) = true := build_okSep s2 ps hs2 hdisj
      have hinner : innerOk ps = true := by
        cases ps with
        | nil => rfl
        | cons q qs =>
            simp only [innerOk, Bool.and_eq_true] at hin
            exact hin.2
      have hih := ih s2 hs2 (fun q hq => hps q (by simp [hq])) hinner
      simp only [build, List.map_cons]
      rw [scan_nodigit_append s _ (fun c hc => (sepOk_chars hs c hc).1)]
      rcases isTok_cases hts with ⟨hne, hds⟩ | ⟨ds, d1, d2, rfl, hne, hds, h1, h2⟩
      · rw [scan_bare_append t _ hne hds hrest, hih]
      · rw [List.append_assoc]
        simp only [List.cons_append, List.nil_append]
        rw [scan_dec_append ds d1 d2 _ hne hds h1 h2, hih]

/-- C1: for every text whose numeric tokens are all well-formed (each
matching digits-dot-two-digits or bare digits, separated by stretches
with no digit and no dot), the regex fallback returns the last token in
left-to-right scan order, parsed as a decimal. -/
theorem claim_C1 (s : List Char) (ps : List (List Char × List Char))
    (hs : sepOk s = true) (hps : ∀ p ∈ ps, isTok p.1 = true ∧ sepOk p.2 = true)
    (hin : innerOk ps = true) (hne : ps ≠ []) :
    parse_amount_with_regex (build s ps) = some (parseTok (ps.getLast hne).1) := by
  apply parse_regex_eq
  rw [scan_build ps s hs hps hin, List.getLast?_map,
    List.getLast?_eq_getLast_of_ne_nil hne]
  rfl

/-- C1 witness: on "Subtotal 10.00 Tax 1.50 Total 11.50" the fallback
returns 11.50. -/
theorem claim_C1_witness :
    parse_amount_with_regex (("Subtotal 10.00 Tax 1.50 Total 11.50").toList) =
      some (23 / 2) := by
  have h := claim_C1 (("Subtotal ").toList)
    [((("10.00").toList), ((" Tax ").toList)),
     ((("1.50").toList), ((" Total ").toList)),
     ((("11.50").toList), ([]))]
    (by decide) (by decide) (by decide) (by decide)
  have hb : ("Subtotal 10.00 Tax 1.50 Total 11.50").toList =
      build (("Subtotal ").toList)
        [((("10.00").toList), ((" Tax ").toList)),
         ((("1.50").toList), ((" Total ").toList)),
         ((("11.50").toList), ([]))] := by decide
  rw [hb, h]
  show some (parseTok (("11.50").toList)) = some (23 / 2)
  rw [parseTok_dec_eval (("11.50").toList) (("11").toList) (("50").toList) 11 50
    (by decide) (by decide) (by decide) (by decide)]
  norm_num

/-- C2 counterexample: the assistant is available and its response is
exactly the single well-formed token "0.00", yet the final result is the
fallback's pick 5, not 0, because a 0.0 amount is falsy in Python
(`if not amount:`), which reruns the fallback. -/
theorem claim_C2_cex :
    scanTokens (pyStrip (("0.00").toList)) = [("0.00").toList] ∧
    parse_amount_with_gemini (Except.ok (("0.00").toList)) = some 0 ∧
    extract_amount_core true (Except.ok (("0.00").toList)) (("Total 5.00").toList) =
      some 5 ∧ (5 : ℚ) ≠ 0 := by
  refine ⟨by decide, ?_⟩
  have h0 : parseTok (("0.00").toList) = 0 := by
    rw [parseTok_dec_eval (("0.00").toList) (("0").toList) (("00").toList) 0 0
      (by decide) (by decide) (by decide) (by decide)]
    norm_num
  have hg : parse_amount_with_gemini (Except.ok (("0.00").toList)) = some 0 := by
    rw [gemini_eq (("0.00").toList) (("0.00").toList) (by decide), h0]
  have h5 : parseTok (("5.00").toList) = 5 := by
    rw [parseTok_dec_eval (("5.00").toList) (("5").toList) (("00").toList) 5 0
      (by decide) (by decide) (by decide) (by decide)]
    norm_num
  have hr : parse_amount_with_regex (("Total 5.00").toList) = some 5 := by
    rw [parse_regex_eq _ (("5.00").toList) (by decide), h5]
  refine ⟨hg, ?_, by norm_num⟩
  rw [core_false _ _ (by rw [hg]; simp [truthy]), hr]

/-- C2 (amended): when the assistant capability is available and its
response contains exactly one well-formed numeric token that parses to a
nonzero value, that token — not the fallback's pick — is the final
result; a response parsing to 0 or 0.00 is falsy in Python and is
overridden by the fallback. -/
theorem claim_C2 (raw text t : List Char)
    (h1 : scanTokens (pyStrip raw) = [t]) (h2 : parseTok t ≠ 0) :
    extract_amount_core true (Except.ok raw) text = some (parseTok t) := by
  have ht : truthy (some (parseTok t)) = true := by simp [truthy, h2]
  rw [core_if, gemini_eq raw t h1, ht]
  simp

/-- C2 witness: a response of "11.50" wins over the fallback's 3.00. -/
theorem claim_C2_witness :
    extract_amount_core true (Except.ok (("11.50").toList)) (("Total 3.00").toList) =
      some (23 / 2) := by
  have hp : parseTok (("11.50").toList) = 23 / 2 := by
    rw [parseTok_dec_eval (("11.50").toList) (("11").toList) (("50").toList) 11 50
      (by decide) (by decide) (by decide) (by decide)]
    norm_num
  have h := claim_C2 (("11.50").toList) (("Total 3.00").toList) (("11.50").toList)
    (by decide) (by rw [hp]; norm_num)
  rw [h, hp]

/-- C3: when the assistant capability is absent, or the assistant call
raises or yields no numeric token, the result equals what the regex
fallback alone produces on the same text; the failure is non-fatal. -/
theorem claim_C3 (use_gemini : Bool) (resp : Except Unit (List Char)) (text : List Char)
    (h : use_gemini = false ∨ parse_amount_with_gemini resp = none) :
    extract_amount_core use_gemini resp text = parse_amount_with_regex text := by
  rcases h with h | h
  · subst h
    exact core_nog resp text
  · cases use_gemini
    · exact core_nog resp text
    · exact core_false resp text (by rw [h]; rfl)

/-- C3 witness: a raising assistant call degrades to the fallback. -/
theorem claim_C3_witness :
    extract_amount_core true (Except.error ()) (("Total 9.99").toList) =
      parse_amount_with_regex (("Total 9.99").toList) :=
  claim_C3 true (Except.error ()) (("Total 9.99").toList) (Or.inr rfl)

/-- C4: on recognized text the amount extractor never raises to its
caller, and when neither the assistant path nor the fallback path yields
a numeric token it returns none. -/
theorem claim_C4 (use_gemini : Bool) (resp : Except Unit (List Char)) (text : List Char) :
    extract_amount_from_image (Except.ok text) use_gemini resp =
      Except.ok (extract_amount_core use_gemini resp text) ∧
    (parse_amount_with_gemini resp = none → scanTokens text = [] →
      extract_amount_core use_gemini resp text = none) := by
  refine ⟨rfl, fun hg ht => ?_⟩
  cases use_gemini
  · rw [core_nog resp text]
    exact parse_regex_none text ht
  · rw [core_false resp text (by rw [hg]; rfl)]
    exact parse_regex_none text ht

/-- C4 witness: tokenless text with a raising assistant yields ok none. -/
theorem claim_C4_witness :
    extract_amount_from_image (Except.ok (("abc").toList)) true (Except.error ()) =
      Except.ok (extract_amount_core true (Except.error ()) (("abc").toList)) ∧
    extract_amount_core true (Except.error ()) (("abc").toList) = none := by
  have h := claim_C4 true (Except.error ()) (("abc").toList)
  exact ⟨h.1, h.2 rfl (by decide)⟩

/-- C5 counterexample: on "Total 12.345" the fallback returns 5 — the
leftover digit "5" after the prefix match "12.34" is itself a match and
is the last one — so the result is none of 12.34, 12, or no-match. -/
theorem claim_C5_cex :
    parse_amount_with_regex (("Total 12.345").toList) = some 5 ∧
    ¬(parse_amount_with_regex (("Total 12.345").toList) = some (1234 / 100) ∨
      parse_amount_with_regex (("Total 12.345").toList) = some 12 ∨
      parse_amount_with_regex (("Total 12.345").toList) = none) := by
  have hr : parse_amount_with_regex (("Total 12.345").toList) = some 5 := by
    rw [parse_regex_eq _ (("5").toList) (by decide),
      parseTok_bare_eval (("5").toList) (("5").toList) 5 (by decide) (by decide)
        (by decide)]
    norm_num
  refine ⟨hr, ?_⟩
  rw [hr]
  rintro (h | h | h)
  · rw [Option.some.injEq] at h
    norm_num at h
  · rw [Option.some.injEq] at h
    norm_num at h
  · exact Option.noConfusion h

/-- C5 (amended): a token with more than 2 fractional digits is not
matched as one token; the prefix per the two-decimal-digit rule matches
("12.34") and the leftover digits match as a further bare-integer token
("5"), so on "Total 12.345" the fallback returns 5. -/
theorem claim_C5 :
    scanTokens (("Total 12.345").toList) = [("12.34").toList, ("5").toList] ∧
    parse_amount_with_regex (("Total 12.345").toList) = some 5 := by
  constructor
  · decide
  · rw [parse_regex_eq _ (("5").toList) (by decide),
      parseTok_bare_eval (("5").toList) (("5").toList) 5 (by decide) (by decide)
        (by decide)]
    norm_num

/-- C6 counterexample: in "1,234.56" the matched tokens are "1" and
"234.56", not only "234.56": the leading "1" also matches. -/
theorem claim_C6_cex :
    scanTokens (("1,234.56").toList) = [("1").toList, ("234.56").toList] ∧
    scanTokens (("1,234.56").toList) ≠ [("234.56").toList] := by
  constructor
  · decide
  · decide

/-- C6 (amended): thousands separators are not stripped before matching:
"1,234.56" matches as the two tokens "1" and "234.56" (the comma breaks
the leading digits, and the part before the comma matches on its own),
so the fallback on any text ending in "1,234.56" returns 234.56. -/
theorem claim_C6 :
    scanTokens (("1,234.56").toList) = [("1").toList, ("234.56").toList] ∧
    ∀ pre : List Char,
      parse_amount_with_regex (pre ++ ("1,234.56").toList) = some (23456 / 100) := by
  constructor
  · decide
  · intro pre
    have hshape : (pre ++ ("1").toList) ++ ',' :: ("234.56").toList =
        pre ++ ("1,234.56").toList := by
      rw [List.append_assoc]
      rfl
    rw [← hshape]
    have hlast : (scanTokens ((pre ++ ("1").toList) ++ ',' :: ("234.56").toList)).getLast? =
        some (("234.56").toList) := by
      rw [scan_split (pre ++ ("1").toList) ',' (("234.56").toList) (by decide) (by decide)]
      have h2 : scanTokens (("234.56").toList) = [("234.56").toList] := by decide
      rw [h2, List.getLast?_concat]
    rw [parse_regex_eq _ (("234.56").toList) hlast,
      parseTok_dec_eval (("234.56").toList) (("234").toList) (("56").toList) 234 56
        (by decide) (by decide) (by decide) (by decide)]
    norm_num

/-- C7 counterexample: an OCR failure is not degraded to empty text — it
propagates out of extract_amount_from_image as the error itself, so the
result differs from what extraction on degraded input would give. -/
theorem claim_C7_cex :
    extract_amount_from_image (Except.error ()) false (Except.error ()) =
      Except.error () ∧
    extract_amount_from_image (Except.error ()) false (Except.error ()) ≠
      Except.ok (extract_amount_core false (Except.error ()) []) :=
  ⟨rfl, fun h => Except.noConfusion h⟩

/-- C7 (amended): an OCR engine failure propagates out of
extract_amount_from_image unchanged (there is no handler around the OCR
call), it is not converted to empty text; only when OCR succeeds does
extraction run, and then no failure escapes. -/
theorem claim_C7 (use_gemini : Bool) (resp : Except Unit (List Char)) :
    extract_amount_from_image (Except.error ()) use_gemini resp = Except.error () ∧
    ∀ text : List Char, extract_amount_from_image (Except.ok text) use_gemini resp =
      Except.ok (extract_amount_core use_gemini resp text) :=
  ⟨rfl, fun _ => rfl⟩

/-! The ledger store.  pp.py delegates serialization entirely to the
tabular-data library (pandas read_csv/to_csv), which is outside src and
which the specification treats as an external collaborator, so the
backing-file format is modelled from the spec: comma-separated rows with
header Date,Category,Amount; Date a calendar date written YYYY-MM-DD;
Amount a non-negative decimal with 2 fractional digits, held here as a
count of hundredths (cents); Category one of the fixed closed set. -/

inductive Category
  | food
  | travel
  | shopping
  | bills
  | other
deriving DecidableEq

def Category.toChars : Category → List Char
  | .food => ("Food").toList
  | .travel => ("Travel").toList
  | .shopping => ("Shopping").toList
  | .bills => ("Bills").toList
  | .other => ("Other").toList

structure ExpenseRecord where
  year : Nat
  month : Nat
  day : Nat
  category : Category
  cents : Nat
deriving DecidableEq

/-- One decimal digit as a character. -/
def digitChar : Nat → Char
  | 0 => '0'
  | 1 => '1'
  | 2 => '2'
  | 3 => '3'
  | 4 => '4'
  | 5 => '5'
  | 6 => '6'
  | 7 => '7'
  | 8 => '8'
  | 9 => '9'
  | _ => '*'

/-- Fuelled base-10 rendering of a natural number, most significant
digit first; fuel n + 1 always suffices. -/
def natToDigitsF : Nat → Nat → List Char
  | 0, _ => []
  | f + 1, n =>
      if n < 10 then [digitChar n]
      else natToDigitsF f (n / 10) ++ [digitChar (n % 10)]

def natToChars (n : Nat) : List Char := natToDigitsF (n + 1) n

/-- Left-pad with zeros to the given width. -/
def padZeros (k : Nat) (ds : List Char) : List Char :=
  List.replicate (k - ds.length) '0' ++ ds

def dateChars (y m d : Nat) : List Char :=
  padZeros 4 (natToChars y) ++ '-' ::
    (padZeros 2 (natToChars m) ++ '-' :: padZeros 2 (natToChars d))

def amountChars (cents : Nat) : List Char :=
  natToChars (cents / 100) ++ '.' :: padZeros 2 (natToChars (cents % 100))

def recordLine (r : ExpenseRecord) : List Char :=
  dateChars r.year r.month r.day ++ ',' ::
    (r.category.toChars ++ ',' :: amountChars r.cents)

def headerChars : List Char := ("Date,Category,Amount").toList

def saveBody (l : List ExpenseRecord) : List Char :=
  (l.map (fun r => recordLine r ++ ['\n'])).flatten

/-- Modelled from the spec: save_data overwrites the backing file in
full with the header line and one comma-separated row per record. -/
def save_data (l : List ExpenseRecord) : List Char :=
  headerChars ++ '\n' :: saveBody l

/-- Field up to the next occurrence of the separator; fails when the
separator never occurs. -/
def splitField (sep : Char) (l : List Char) : Option (List Char × List Char) :=
  match l.dropWhile (fun c => c != sep) with
  | _ :: rest => some (l.takeWhile (fun c => c != sep), rest)
  | [] => none

def parseNat (l : List Char) : Option Nat :=
  if l ≠ [] ∧ ∀ c ∈ l, c.isDigit = true then some (natOfDigits l) else none

def parseDate (l : List Char) : Option (Nat × Nat × Nat) :=
  match splitField '-' l with
  | some (ys, rest) =>
      match splitField '-' rest with
      | some (ms, ds) =>
          match parseNat ys, parseNat ms, parseNat ds with
          | some y, some m, some d => some (y, m, d)
          | _, _, _ => none
      | none => none
  | none => none

def parseCategory (l : List Char) : Option Category :=
  if l = ("Food").toList then some .food
  else if l = ("Travel").toList then some .travel
  else if l = ("Shopping").toList then some .shopping
  else if l = ("Bills").toList then some .bills
  else if l = ("Other").toList then some .other
  else none

def parseAmount (l : List Char) : Option Nat :=
  match splitField '.' l with
  | some (ip, fp) =>
      if fp.length = 2 then
        match parseNat ip, parseNat fp with
        | some i, some f => some (i * 100 + f)
        | _, _ => none
      else none
  | none => none

def parseLine (l : List Char) : Option ExpenseRecord :=
  match splitField ',' l with
  | some (df, rest) =>
      match splitField ',' rest with
      | some (cf, af) =>
          match parseDate df, parseCategory cf, parseAmount af with
          | some (y, m, d), some cat, some cents => some ⟨y, m, d, cat, cents⟩
          | _, _, _ => none
      | none => none
  | none => none

/-- Fuelled parse of the newline-terminated rows; fuel bounds the number
of rows, one row consumes at least one character. -/
def parseLinesF : Nat → List Char → Option (List ExpenseRecord)
  | _, [] => some []
  | 0, _ :: _ => none
  | f + 1, c :: cs =>
      match splitField '\n' (c :: cs) with
      | some (line, rest) =>
          match parseLine line with
          | some r => (parseLinesF f rest).map (fun rs => r :: rs)
          | none => none
      | none => none

/-- Modelled from the spec: load_data reads the backing file back as a
ledger, checking the header and parsing each row. -/
def load_data (file : List Char) : Option (List ExpenseRecord) :=
  match splitField '\n' file with
  | some (h, rest) => if h = headerChars then parseLinesF rest.length rest else none
  | none => none

/-! Round-trip lemmas for the ledger store. -/

theorem digit_ne_char {c sep : Char} (h : c.isDigit = true) (hs : sep.isDigit = false) :
    c ≠ sep := by
  intro he
  rw [he] at h
  rw [h] at hs
  cases hs

theorem ne_of_digit {sep : Char} (hsep : sep.isDigit = false) (l : List Char)
    (hl : ∀ c ∈ l, c.isDigit = true) : ∀ c ∈ l, c ≠ sep :=
  fun c hc => digit_ne_char (hl c hc) hsep

theorem digitVal_digitChar {n : Nat} (h : n < 10) : digitVal (digitChar n) = n := by
  interval_cases n <;> decide

theorem isDigit_digitChar {n : Nat} (h : n < 10) : (digitChar n).isDigit = true := by
  interval_cases n <;> decide

theorem natOfDigits_append_single (xs : List Char) (c : Char) :
    natOfDigits (xs ++ [c]) = natOfDigits xs * 10 + digitVal c := by
  unfold natOfDigits
  rw [List.foldl_append]
  rfl

theorem natToDigitsF_spec : ∀ (f n : Nat), n < f →
    natOfDigits (natToDigitsF f n) = n ∧ natToDigitsF f n ≠ [] ∧
      ∀ c ∈ natToDigitsF f n, c.isDigit = true := by
  intro f
  induction f with
  | zero => intro n hn; omega
  | succ f ih =>
      intro n hn
      by_cases h10 : n < 10
      · rw [show natToDigitsF (f + 1) n = [digitChar n] from by simp [natToDigitsF, h10]]
        refine ⟨?_, by simp, ?_⟩
        · show 0 * 10 + digitVal (digitChar n) = n
          rw [digitVal_digitChar h10]
          omega
        · intro c hc
          rw [List.eq_of_mem_singleton hc]
          exact isDigit_digitChar h10
      · rw [show natToDigitsF (f + 1) n =
            natToDigitsF f (n / 10) ++ [digitChar (n % 10)] from by
          simp [natToDigitsF, h10]]
        have hlt : n / 10 < f := by
          have h1 : n / 10 < n := Nat.div_lt_self (by omega) (by omega)
          omega
        obtain ⟨hval, hne, hdig⟩ := ih (n / 10) hlt
        refine ⟨?_, by simp, ?_⟩
        · rw [natOfDigits_append_single, hval, digitVal_digitChar (Nat.mod_lt _ (by omega))]
          omega
        · intro c hc
          rcases List.mem_append.mp hc with h | h
          · exact hdig c h
          · rw [List.eq_of_mem_singleton h]
            exact isDigit_digitChar (Nat.mod_lt _ (by omega))

theorem natOfDigits_natToChars (n : Nat) : natOfDigits (natToChars n) = n :=
  (natToDigitsF_spec (n + 1) n (Nat.lt_succ_self n)).1

theorem natToChars_ne_nil (n : Nat) : natToChars n ≠ [] :=
  (natToDigitsF_spec (n + 1) n (Nat.lt_succ_self n)).2.1

theorem natToChars_digits (n : Nat) : ∀ c ∈ natToChars n, c.isDigit = true :=
  (natToDigitsF_spec (n + 1) n (Nat.lt_succ_self n)).2.2

theorem natOfDigits_cons_zero (xs : List Char) :
    natOfDigits ('0' :: xs) = natOfDigits xs := rfl

theorem natOfDigits_padZeros (k : Nat) (ds : List Char) :
    natOfDigits (padZeros k ds) = natOfDigits ds := by
  unfold padZeros
  generalize k - ds.length = j
  induction j with
  | zero => rfl
  | succ j ihj =>
      rw [List.replicate_succ, List.cons_append, natOfDigits_cons_zero]
      exact ihj

theorem padZeros_digits (k : Nat) (ds : List Char)
    (hd : ∀ c ∈ ds, c.isDigit = true) : ∀ c ∈ padZeros k ds, c.isDigit = true := by
  intro c hc
  unfold padZeros at hc
  rcases List.mem_append.mp hc with h | h
  · rw [List.eq_of_mem_replicate h]
    decide
  · exact hd c h

theorem padZeros_ne_nil (k : Nat) (ds : List Char) (h : ds ≠ []) :
    padZeros k ds ≠ [] := by
  unfold padZeros
  intro hc
  exact h (List.append_eq_nil.mp hc).2

theorem parseNat_eval (ds : List Char) (i : Nat) (hne : ds ≠ [])
    (hd : ∀ c ∈ ds, c.isDigit = true) (hv : natOfDigits ds = i) :
    parseNat ds = some i := by
  unfold parseNat
  rw [if_pos ⟨hne, hd⟩, hv]

theorem parseNat_pad (k n : Nat) : parseNat (padZeros k (natToChars n)) = some n :=
  parseNat_eval _ n (padZeros_ne_nil k _ (natToChars_ne_nil n))
    (padZeros_digits k _ (natToChars_digits n))
    (by rw [natOfDigits_padZeros, natOfDigits_natToChars])

theorem splitField_append (sep : Char) (a b : List Char) (ha : ∀ c ∈ a, c ≠ sep) :
    splitField sep (a ++ sep :: b) = some (a, b) := by
  have hp : ∀ c ∈ a, (c != sep) = true := fun c hc => bne_iff_ne.mpr (ha c hc)
  have hh : ∀ c, (sep :: b).head? = some c → (c != sep) = false := by
    intro c hc
    cases hc
    simp
  have hspan := takeWhile_app (fun c => c != sep) a (sep :: b) hp hh
  unfold splitField
  simp only [hspan.1, hspan.2]

theorem natToDigitsF_small (f n : Nat) (h : n < 10) :
    natToDigitsF (f + 1) n = [digitChar n] := by
  simp [natToDigitsF, h]

theorem natToChars_len_le_two (n : Nat) (h : n < 100) : (natToChars n).length ≤ 2 := by
  unfold natToChars
  by_cases h10 : n < 10
  · rw [natToDigitsF_small n n h10]
    simp
  · have h10' : 10 ≤ n := Nat.le_of_not_lt h10
    rw [show natToDigitsF (n + 1) n =
        natToDigitsF n (n / 10) ++ [digitChar (n % 10)] from by
      simp [natToDigitsF, h10]]
    have hq : n / 10 < 10 := by omega
    obtain ⟨m, rfl⟩ : ∃ m, n = m + 1 := ⟨n - 1, by omega⟩
    rw [natToDigitsF_small m _ hq]
    simp

theorem parseDate_eval (y m d : Nat) : parseDate (dateChars y m d) = some (y, m, d) := by
  have hyd : ∀ c ∈ padZeros 4 (natToChars y), c.isDigit = true :=
    padZeros_digits 4 _ (natToChars_digits y)
  have hmd : ∀ c ∈ padZeros 2 (natToChars m), c.isDigit = true :=
    padZeros_digits 2 _ (natToChars_digits m)
  have h1 : splitField '-' (dateChars y m d) =
      some (padZeros 4 (natToChars y),
        padZeros 2 (natToChars m) ++ '-' :: padZeros 2 (natToChars d)) := by
    unfold dateChars
    exact splitField_append '-' _ _ (ne_of_digit (by decide) _ hyd)
  have h2 : splitField '-'
        (padZeros 2 (natToChars m) ++ '-' :: padZeros 2 (natToChars d)) =
      some (padZeros 2 (natToChars m), padZeros 2 (natToChars d)) :=
    splitField_append '-' _ _ (ne_of_digit (by decide) _ hmd)
  unfold parseDate
  simp only [h1, h2, parseNat_pad 4 y, parseNat_pad 2 m, parseNat_pad 2 d]

theorem length_padZeros (k : Nat) (ds : List Char) (h : ds.length ≤ k) :
    (padZeros k ds).length = k := by
  unfold padZeros
  rw [List.length_append, List.length_replicate]
  omega

theorem parseNat_natToChars (n : Nat) : parseNat (natToChars n) = some n :=
  parseNat_eval _ n (natToChars_ne_nil n) (natToChars_digits n)
    (natOfDigits_natToChars n)

theorem parseAmount_eval (cents : Nat) : parseAmount (amountChars cents) = some cents := by
  have hip := natToChars_digits (cents / 100)
  have h1 : splitField '.' (amountChars cents) =
      some (natToChars (cents / 100), padZeros 2 (natToChars (cents % 100))) := by
    unfold amountChars
    exact splitField_append '.' _ _ (ne_of_digit (by decide) _ hip)
  have hlen : (padZeros 2 (natToChars (cents % 100))).length = 2 :=
    length_padZeros 2 _ (natToChars_len_le_two _ (Nat.mod_lt _ (by omega)))
  unfold parseAmount
  simp only [h1, hlen, parseNat_natToChars (cents / 100), parseNat_pad 2 (cents % 100),
    if_pos rfl, if_true]
  rw [Option.some.injEq]
  omega

theorem parseCategory_eval (cat : Category) :
    parseCategory (Category.toChars cat) = some cat := by
  cases cat <;> decide

theorem category_no_comma (cat : Category) :
    ∀ c ∈ Category.toChars cat, c ≠ ',' := by
  cases cat <;> decide

theorem category_no_newline (cat : Category) :
    ∀ c ∈ Category.toChars cat, c ≠ '\n' := by
  cases cat <;> decide

theorem dateChars_mem (y m d : Nat) :
    ∀ c ∈ dateChars y m d, c.isDigit = true ∨ c = '-' := by
  intro c hc
  unfold dateChars at hc
  rcases List.mem_append.mp hc with h | h
  · exact Or.inl (padZeros_digits 4 _ (natToChars_digits y) c h)
  · rcases List.mem_cons.mp h with h | h
    · exact Or.inr h
    · rcases List.mem_append.mp h with h | h
      · exact Or.inl (padZeros_digits 2 _ (natToChars_digits m) c h)
      · rcases List.mem_cons.mp h with h | h
        · exact Or.inr h
        · exact Or.inl (padZeros_digits 2 _ (natToChars_digits d) c h)

theorem amountChars_mem (cents : Nat) :
    ∀ c ∈ amountChars cents, c.isDigit = true ∨ c = '.' := by
  intro c hc
  unfold amountChars at hc
  rcases List.mem_append.mp hc with h | h
  · exact Or.inl (natToChars_digits _ c h)
  · rcases List.mem_cons.mp h with h | h
    · exact Or.inr h
    · exact Or.inl (padZeros_digits 2 _ (natToChars_digits _) c h)

theorem dateChars_no_comma (y m d : Nat) : ∀ c ∈ dateChars y m d, c ≠ ',' := by
  intro c hc
  rcases dateChars_mem y m d c hc with h | h
  · exact digit_ne_char h (by decide)
  · rw [h]
    decide

theorem recordLine_no_newline (r : ExpenseRecord) :
    ∀ c ∈ recordLine r, c ≠ '\n' := by
  intro c hc
  unfold recordLine at hc
  rcases List.mem_append.mp hc with h | h
  · rcases dateChars_mem _ _ _ c h with h | h
    · exact digit_ne_char h (by decide)
    · rw [h]
      decide
  · rcases List.mem_cons.mp h with h | h
    · rw [h]
      decide
    · rcases List.mem_append.mp h with h | h
      · exact category_no_newline r.category c h
      · rcases List.mem_cons.mp h with h | h
        · rw [h]
          decide
        · rcases amountChars_mem _ c h with h | h
          · exact digit_ne_char h (by decide)
          · rw [h]
            decide

theorem parseLine_eval (r : ExpenseRecord) : parseLine (recordLine r) = some r := by
  have h1 : splitField ',' (recordLine r) =
      some (dateChars r.year r.month r.day,
        Category.toChars r.category ++ ',' :: amountChars r.cents) := by
    unfold recordLine
    exact splitField_append ',' _ _ (dateChars_no_comma _ _ _)
  have h2 : splitField ','
        (Category.toChars r.category ++ ',' :: amountChars r.cents) =
      some (Category.toChars r.category, amountChars r.cents) :=
    splitField_append ',' _ _ (category_no_comma r.category)
  unfold parseLine
  simp only [h1, h2, parseDate_eval, parseCategory_eval, parseAmount_eval]

theorem parseLinesF_nil (f : Nat) : parseLinesF f [] = some [] := by
  cases f <;> rfl

theorem saveBody_cons (r : ExpenseRecord) (L : List ExpenseRecord) :
    saveBody (r :: L) = recordLine r ++ '\n' :: saveBody L := by
  unfold saveBody
  rw [List.map_cons, List.flatten_cons, List.append_assoc]
  rfl

theorem parseLinesF_save : ∀ (L : List ExpenseRecord) (f : Nat),
    (saveBody L).length ≤ f → parseLinesF f (saveBody L) = some L := by
  intro L
  induction L with
  | nil =>
      intro f _
      rw [show saveBody [] = [] from rfl]
      exact parseLinesF_nil f
  | cons r L ih =>
      intro f hf
      rw [saveBody_cons] at hf ⊢
      have hpos : 0 < (recordLine r ++ '\n' :: saveBody L).length := by simp
      obtain ⟨f', rfl⟩ : ∃ f', f = f' + 1 := ⟨f - 1, by omega⟩
      have hlen2 : (saveBody L).length ≤ f' := by
        rw [List.length_append, List.length_cons] at hf
        omega
      obtain ⟨c, cs, hcons⟩ :
          ∃ c cs, recordLine r ++ '\n' :: saveBody L = c :: cs := by
        cases hr : recordLine r ++ '\n' :: saveBody L with
        | nil => simp at hr
        | cons c cs => exact ⟨c, cs, rfl⟩
      rw [hcons]
      show (match splitField '\n' (c :: cs) with
        | some (line, rest) =>
            match parseLine line with
            | some r => (parseLinesF f' rest).map (fun rs => r :: rs)
            | none => none
        | none => none) = some (r :: L)
      rw [← hcons, splitField_append '\n' _ _ (recordLine_no_newline r)]
      simp only [parseLine_eval r, ih f' hlen2, Option.map_some']

theorem load_save (L : List ExpenseRecord) : load_data (save_data L) = some L := by
  unfold load_data save_data
  rw [splitField_append '\n' headerChars (saveBody L) (by decide)]
  show (if headerChars = headerChars then
      parseLinesF (saveBody L).length (saveBody L) else none) = some L
  rw [if_pos rfl]
  exact parseLinesF_save L _ le_rfl

example :
    load_data (save_data [ExpenseRecord.mk 2024 1 31 Category.food 1150,
      ExpenseRecord.mk 2024 12 2 Category.other 5]) =
    some [ExpenseRecord.mk 2024 1 31 Category.food 1150,
      ExpenseRecord.mk 2024 12 2 Category.other 5] := by decide

/-- C8: saving a ledger of records to the backing file and reloading it
yields the same records, with identical date, category, and amount
values (the amount kept to 2 fractional digits, held as hundredths). -/
theorem claim_C8 (L : List ExpenseRecord) : load_data (save_data L) = some L :=
  load_save L

/-- C9: for every backing file produced by a save, loading it and saving
the loaded ledger again unchanged reproduces the file byte for byte. -/
theorem claim_C9 (L : List ExpenseRecord) :
    ∃ L', load_data (save_data L) = some L' ∧ save_data L' = save_data L :=
  ⟨L, load_save L, rfl⟩

/-! The expense form (pp.py lines 105-121): on submit with a strictly
positive amount, the record built from the date, the category chosen
from the fixed selectbox list, and the amount is appended and the file
rewritten; otherwise nothing happens.  Amounts are decimals with 2
fractional digits (spec data model), held as hundredths. -/

def categoryChoices : List Category :=
  [.food, .travel, .shopping, .bills, .other]

structure AppState where
  data : List ExpenseRecord
  file : List Char
deriving DecidableEq

def expense_form (st : AppState) (submitted : Bool) (y m d : Nat)
    (category : Category) (cents : Nat) : AppState :=
  if submitted && decide (0 < cents) then
    AppState.mk (st.data ++ [ExpenseRecord.mk y m d category cents])
      (save_data (st.data ++ [ExpenseRecord.mk y m d category cents]))
  else st

/-- C10: every record the expense form appends has amount strictly
greater than 0 and a category from the closed selectbox set; a
submission with amount 0 appends nothing and leaves the ledger and the
backing file unchanged, so a zero-amount expense is never recorded. -/
theorem claim_C10 (st : AppState) (submitted : Bool) (y m d : Nat)
    (category : Category) (cents : Nat) :
    (cents = 0 → expense_form st submitted y m d category cents = st) ∧
    ∀ r ∈ (expense_form st submitted y m d category cents).data,
      r ∈ st.data ∨ (0 < r.cents ∧ r.category ∈ categoryChoices) := by
  constructor
  · intro h0
    subst h0
    unfold expense_form
    simp
  · intro r hr
    unfold expense_form at hr
    by_cases hcond : (submitted && decide (0 < cents)) = true
    · rw [if_pos hcond] at hr
      rcases List.mem_append.mp hr with h | h
      · exact Or.inl h
      · right
        have hre : r = ExpenseRecord.mk y m d category cents := by simpa using h
        subst hre
        simp only [Bool.and_eq_true, decide_eq_true_eq] at hcond
        refine ⟨hcond.2, ?_⟩
        show category ∈ categoryChoices
        cases category <;> decide
    · rw [if_neg hcond] at hr
      exact Or.inl hr

/-- C10 witness: a zero-amount submission changes nothing. -/
theorem claim_C10_witness :
    expense_form (AppState.mk [] []) true 2024 1 1 Category.food 0 =
      AppState.mk [] [] ∧
    ∀ r ∈ (expense_form (AppState.mk [] []) true 2024 1 1 Category.food 0).data,
      r ∈ ([] : List ExpenseRecord) ∨ (0 < r.cents ∧ r.category ∈ categoryChoices) := by
  have h := claim_C10 (AppState.mk [] []) true 2024 1 1 Category.food 0
  exact ⟨h.1 rfl, h.2⟩

end Expense
